import Mathlib

/-!
Verification of the Okapiq market-intelligence core.

This file gives a shallow embedding, in Lean 4, of the algorithmic core of the
repository:

* the mathematical analytics service
  (backend/app/services/mathematical_analytics_service.py): the HHI
  concentration calculator, the revenue estimator and the business-density
  calculator (including its census lookup with its cache and its randomized
  fallback, which are modelled with an explicit state);
* the deduplicator/merger (function aggregate_business_data of
  backend/app/routers/intelligence.py);
* the relevance filter (function _is_relevant_business of
  backend/app/routers/intelligence_working_fixed.py).

Python floats are modelled as rational numbers, except where the source takes a
real logarithm (math.log), where real numbers are used.  Python dict fields read
with .get and a default are modelled as total fields holding the default when
the key is absent, or as Option fields where absence is observable.  Python
sets are modelled as first-occurrence-ordered duplicate-free lists, and the
global random generator as an explicit stream of natural-number draws.
-/

namespace Okapiq

/-! ## String helpers shared by several components -/

/-- Python str.lower() (the names handled by the source are ASCII). -/
def toLowerStr (s : String) : String :=
  String.mk (s.data.map Char.toLower)

/-- Python str.strip(): drop whitespace from both ends. -/
def trimStr (s : String) : String :=
  String.mk (((s.data.dropWhile Char.isWhitespace).reverse.dropWhile
    Char.isWhitespace).reverse)

/-- Substring test on character lists. -/
def containsSub (pat : List Char) : List Char → Bool
  | [] => pat.isEmpty
  | c :: t => pat.isPrefixOf (c :: t) || containsSub pat t

/-- Substring test: models the Python expression pat in s. -/
def strContains (s pat : String) : Bool :=
  containsSub pat.data s.data

/-- A word character in the sense of the regex class used by the source
(ASCII alphanumeric or underscore). -/
def isWordChar (c : Char) : Bool :=
  c.isAlphanum || c = '_'

/-- Cut a character list into its maximal runs of word characters; the Bool
argument carries the current (reversed) run. -/
def tokenizeW (cur : List Char) : List Char → List (List Char)
  | [] => if cur.isEmpty then [] else [cur.reverse]
  | c :: t =>
    if isWordChar c then tokenizeW (c :: cur) t
    else if cur.isEmpty then tokenizeW [] t
    else cur.reverse :: tokenizeW [] t

/-- Maximal runs of word characters of a string; models splitting on the
regex word boundaries used by _is_relevant_business for short keywords. -/
def wordTokens (s : String) : List String :=
  (tokenizeW [] s.data).map String.mk

/-- Word-boundary search: for a keyword made only of word characters, the
regex word-boundary search of the source succeeds exactly when the keyword
is one of the maximal word runs of the text. -/
def wordBoundarySearch (s kw : String) : Bool :=
  (wordTokens s).contains kw

/-- Models re.sub of the class complement-of-word-and-space by the empty
string: every character that is neither a word character nor whitespace is
removed. -/
def stripPunct (s : String) : String :=
  String.mk (s.data.filter (fun c => isWordChar c || c.isWhitespace))

/-- Models re.sub of one-or-more-whitespace by a single space; the Bool
records whether the previous character was whitespace. -/
def collapseWSAux : Bool → List Char → List Char
  | _, [] => []
  | inWS, c :: t =>
    if c.isWhitespace then
      if inWS then collapseWSAux true t else ' ' :: collapseWSAux true t
    else c :: collapseWSAux false t

/-- Replace every maximal whitespace run by a single space. -/
def collapseWS (l : List Char) : List Char :=
  collapseWSAux false l

/-- The normalized-name grouping key of aggregate_business_data: lower-case,
strip punctuation, trim, collapse whitespace runs to single spaces. -/
def normKey (s : String) : String :=
  String.mk (collapseWS (trimStr (stripPunct (toLowerStr s))).data)

/-! ## The HHI concentration calculator

Embedding of MathematicalAnalyticsService.calculate_hhi_index.  A business,
as consumed by the analytics service, is a dict; the fields the calculator
reads are modelled below.  .get with default 0 is folded into a total field
(an absent key and a stored 0 are indistinguishable to the calculator), and
the or-defaults of the reviews_weighted branch are modelled by effReviews
and effRating. -/

structure MBiz where
  name : String
  estimated_revenue : ℚ
  reviews : ℕ
  review_count : ℕ
  rating : ℚ
deriving Repr, DecidableEq

/-- business.get(reviews, 0) or business.get(review_count, 0): a zero (or
absent) reviews entry falls back to review_count. -/
def effReviews (b : MBiz) : ℕ :=
  if b.reviews ≠ 0 then b.reviews else b.review_count

/-- business.get(rating, 4.0) or 4.0: a zero (or absent) rating becomes 4.0. -/
def effRating (b : MBiz) : ℚ :=
  if b.rating = 0 then 4 else b.rating

/-- The hard-coded chain list of the chain_independent proxy. -/
def common_chains : List String :=
  ["mcdonalds", "subway", "starbucks", "pizza hut",
   "dominos", "taco bell", "kfc", "burger king"]

/-- any(chain in name for chain in common_chains). -/
def isChain (name : String) : Bool :=
  common_chains.any (fun chain => strContains (toLowerStr name) chain)

/-- The market-share pool value contributed by one business under a given
proxy (the per-business value appended by each branch of the source loop;
under the default branch every business contributes the same value). -/
def shareValue (proxy : String) (n : ℕ) (b : MBiz) : ℚ :=
  if proxy = "revenue" then b.estimated_revenue
  else if proxy = "reviews_weighted" then (effReviews b : ℚ) * (effRating b / 5)
  else if proxy = "chain_independent" then (if isChain b.name then 100 else 10)
  else 1 / n

/-- The market_shares list accumulated by calculate_hhi_index: the revenue
branch keeps only strictly positive revenues, the two other named branches
keep every value, and the default branch assigns the equal share 1/n. -/
def rawShares (bs : List MBiz) (proxy : String) : List ℚ :=
  if proxy = "revenue" then
    (bs.map (shareValue proxy bs.length)).filter (fun r => 0 < r)
  else
    bs.map (shareValue proxy bs.length)

/-- total_market_value: the three named branches accumulate exactly the sum of
the values they append; the default branch sets it to 1.0. -/
def totalMarketValue (bs : List MBiz) (proxy : String) : ℚ :=
  if proxy = "revenue" ∨ proxy = "reviews_weighted" ∨ proxy = "chain_independent" then
    (rawShares bs proxy).sum
  else 1

/-- The normalized market shares: divide by the total when it is positive,
otherwise fall back to the equal share 1/len(businesses). -/
def sharePercentages (bs : List MBiz) (proxy : String) : List ℚ :=
  let shares := rawShares bs proxy
  let total := totalMarketValue bs proxy
  if 0 < total then shares.map (fun s => s / total)
  else List.replicate bs.length ((bs.length : ℚ)⁻¹)

structure HHIResult where
  hhi_score : ℚ
  market_concentration : String
deriving Repr, DecidableEq

/-- Embedding of calculate_hhi_index.  The reporting-only output keys
(fragmentation_level, antitrust_concern, rollup_opportunity,
largest_market_share, top_3_market_share, ...) are not modelled; hhi_score
and market_concentration are. -/
def calculate_hhi_index (bs : List MBiz) (proxy : String) : HHIResult :=
  if bs.isEmpty then { hhi_score := 0, market_concentration := "No Data" }
  else
    let pcts := sharePercentages bs proxy
    let hhi := ((pcts.map (fun s => s ^ 2)).sum) * 10000
    { hhi_score := hhi,
      market_concentration :=
        if hhi < 1500 then "Unconcentrated"
        else if hhi < 2500 then "Moderately Concentrated"
        else "Highly Concentrated" }

/-! ## The revenue estimator

Embedding of MathematicalAnalyticsService.calculate_revenue_estimate.  The
review and picture counts are Python ints; the industry coefficients are the
static table of the service constructor; math.log is the real logarithm. -/

/-- The static industry coefficient dict (alpha, beta per row). -/
def industry_coefficients_table : List (String × (ℚ × ℚ)) :=
  [("restaurant", (12000, 1200)),
   ("dental", (18000, 1800)),
   ("auto-repair", (8000, 800)),
   ("salon", (6000, 600)),
   ("fitness", (15000, 1500)),
   ("legal", (25000, 2500)),
   ("medical", (22000, 2200)),
   ("retail", (7000, 700)),
   ("hvac", (14000, 1400)),
   ("plumbing", (13000, 1300)),
   ("consulting", (20000, 2000)),
   ("accounting", (16000, 1600)),
   ("real-estate", (19000, 1900)),
   ("catering", (10000, 1000)),
   ("general", (12000, 1200))]

/-- dict .get with the general row as the fallback for unknown keys. -/
def industry_coefficients (key : String) : ℚ × ℚ :=
  (industry_coefficients_table.lookup key).getD (12000, 1200)

/-- industry.lower().replace(space, dash) if industry else general. -/
def industry_key (industry : String) : String :=
  if industry = "" then "general"
  else String.mk ((toLowerStr industry).data.map (fun c => if c = ' ' then '-' else c))

/-- math.log(1 + n) if n >= 0 else 0. -/
noncomputable def logArg (n : ℤ) : ℝ :=
  if 0 ≤ n then Real.log (1 + (n : ℝ)) else 0

/-- The additional_factors dict: the three keys the estimator reads, each
possibly absent.  A dict with none of them behaves like the absent dict. -/
structure AdditionalFactors where
  rating : Option ℚ
  years_in_business : Option ℚ
  location_premium : Option ℚ
deriving Repr, DecidableEq

/-- len(additional_factors) restricted to the modelled keys. -/
def afLen (f : AdditionalFactors) : ℕ :=
  (if f.rating.isSome then 1 else 0) +
  (if f.years_in_business.isSome then 1 else 0) +
  (if f.location_premium.isSome then 1 else 0)

/-- The sequential adjustment_factor updates: rating band, tenure band, then
the raw location premium.  An absent dict (or one with none of the keys)
leaves the factor at 1. -/
def adjustment_factor (af : Option AdditionalFactors) : ℚ :=
  match af with
  | none => 1
  | some f =>
    let a1 : ℚ := match f.rating with
      | none => 1
      | some rt =>
        if 9 / 2 ≤ rt then 6 / 5
        else if 4 ≤ rt then 1
        else if 7 / 2 ≤ rt then 4 / 5
        else 3 / 5
    let a2 : ℚ := a1 * (match f.years_in_business with
      | none => 1
      | some y => if 15 ≤ y then 23 / 20 else if 5 ≤ y then 1 else 9 / 10)
    a2 * (match f.location_premium with | none => 1 | some lp => lp)

structure RevenueResult where
  revenue_estimate : ℝ
  revenue_range_low : ℝ
  revenue_range_high : ℝ
  confidence_score : ℚ

/-- Embedding of calculate_revenue_estimate (the formula_components and
data_sources echo keys of the returned dict are not modelled). -/
noncomputable def calculate_revenue_estimate (business_name : String)
    (review_count picture_count : ℤ) (industry : String)
    (additional_factors : Option AdditionalFactors) : RevenueResult :=
  let coefficients := industry_coefficients (industry_key industry)
  let alpha := coefficients.1
  let beta := coefficients.2
  let log_reviews := logArg review_count
  let log_pictures := logArg picture_count
  let base_revenue_estimate := (alpha : ℝ) * log_reviews + (beta : ℝ) * log_pictures
  let adj := adjustment_factor additional_factors
  let revenue_estimate := base_revenue_estimate * (adj : ℝ)
  let final_revenue_estimate := max revenue_estimate 150000
  let confidence_score : ℚ :=
    min ((7 : ℚ) / 10
      + (if 50 ≤ review_count then (1 : ℚ) / 10 else 0)
      + (if 10 ≤ picture_count then (1 : ℚ) / 10 else 0)
      + (match additional_factors with
         | some f => if 2 ≤ afLen f then (1 : ℚ) / 10 else 0
         | none => 0)) (19 / 20)
  { revenue_estimate := final_revenue_estimate
    revenue_range_low := final_revenue_estimate * (3 / 4 : ℝ)
    revenue_range_high := final_revenue_estimate * (5 / 4 : ℝ)
    confidence_score := confidence_score }

/-! ## The business-density calculator

Embedding of MathematicalAnalyticsService.calculate_business_density together
with its census lookup chain (_fetch_census_acs_data, _get_realistic_census_data,
_generate_realistic_census_estimate).  The lookup chain is stateful: it reads
and writes the per-service population cache, and for locations outside the
static metro table it draws from the global random generator.  Both are made
explicit in a World value threaded through the call. -/

structure CensusData where
  population : ℕ
  total_households : ℕ
  median_household_income : ℕ
  median_age : ℚ
deriving Repr, DecidableEq

/-- The static metro Census table of _get_realistic_census_data. -/
def metro_census_data : List (String × CensusData) :=
  [("san francisco", ⟨884279, 378438, 119136, 77 / 2⟩),
   ("los angeles", ⟨3971883, 1395778, 70372, 181 / 5⟩),
   ("new york", ⟨8230290, 3147295, 70663, 377 / 10⟩),
   ("chicago", ⟨2665039, 1045560, 62097, 35⟩),
   ("houston", ⟨2302878, 841381, 54441, 339 / 10⟩),
   ("phoenix", ⟨1650070, 590151, 64927, 341 / 10⟩),
   ("philadelphia", ⟨1567442, 603953, 49127, 174 / 5⟩),
   ("san antonio", ⟨1472909, 517966, 53420, 167 / 5⟩),
   ("san diego", ⟨1381162, 518610, 89457, 178 / 5⟩),
   ("dallas", ⟨1299544, 514573, 56304, 323 / 10⟩)]

/-- The hidden state the density calculator touches: the stream of draws of
the global random generator, and the per-service census cache. -/
structure World where
  rng : List ℕ
  population_cache : List (String × CensusData)
deriving Repr, DecidableEq

/-- One draw from the modelled random stream (an exhausted model stream
repeats 0). -/
def drawNat (rng : List ℕ) : ℕ × List ℕ :=
  match rng with
  | [] => (0, [])
  | x :: r => (x, r)

/-- random.randint(lo, hi): a state-determined value in [lo, hi]. -/
def randint (lo hi : ℕ) (rng : List ℕ) : ℕ × List ℕ :=
  let (x, r) := drawNat rng
  (lo + x % (hi - lo + 1), r)

/-- random.uniform(lo, hi): a state-determined rational in [lo, hi]
(modelled at hundredth granularity). -/
def randUniform (lo hi : ℚ) (rng : List ℕ) : ℚ × List ℕ :=
  let (x, r) := drawNat rng
  (lo + (((x % 101 : ℕ) : ℚ) / 100) * (hi - lo), r)

/-- int() truncation of a non-negative rational (executable floor). -/
def ratToNat (q : ℚ) : ℕ :=
  (q.num / (q.den : ℤ)).toNat

/-- Models _generate_realistic_census_estimate: random population 75000..450000,
households = population / uniform(2.2, 2.8) truncated, random income and
age.  The location argument is unused by the source body as well. -/
def generate_realistic_census_estimate (_location : String) (rng : List ℕ) :
    CensusData × List ℕ :=
  let (base_population, r1) := randint 75000 450000 rng
  let (people_per_household, r2) := randUniform (11 / 5) (14 / 5) r1
  let total_households := ratToNat ((base_population : ℚ) / people_per_household)
  let (median_income, r3) := randint 45000 85000 r2
  let (median_age, r4) := randUniform 32 42 r3
  (⟨base_population, total_households, median_income, median_age⟩, r4)

/-- Models _get_realistic_census_data: exact metro match, then bidirectional
substring match, then the randomized estimate. -/
def get_realistic_census_data (location : String) (rng : List ℕ) :
    CensusData × List ℕ :=
  let location_key := toLowerStr location
  match metro_census_data.lookup location_key with
  | some d => (d, rng)
  | none =>
    match metro_census_data.find?
        (fun kd => strContains location_key kd.1 || strContains kd.1 location_key) with
    | some kd => (kd.2, rng)
    | none => generate_realistic_census_estimate location rng

/-- Models _fetch_census_acs_data: serve from the cache when possible, otherwise
compute and cache.  (The exception fallback row of the source is unreachable
in the model: the lookup chain cannot raise.) -/
def fetch_census_acs_data (location : String) (w : World) : CensusData × World :=
  match w.population_cache.lookup (toLowerStr location) with
  | some d => (d, w)
  | none =>
    let (d, rng2) := get_realistic_census_data location w.rng
    (d, ⟨rng2, w.population_cache ++ [(toLowerStr location, d)]⟩)

structure DensityResult where
  business_density : ℚ
  density_type : String
  density_level : String
  market_saturation : String
  population_base : ℕ
deriving Repr, DecidableEq

/-- Embedding of calculate_business_density: count over the census
population (or household) base, with the fixed interpretation bands. -/
def calculate_business_density (w : World) (businesses_count : ℕ)
    (location _industry : String) (use_households : Bool) : DensityResult × World :=
  let (census_data, w2) := fetch_census_acs_data location w
  let denominator := if use_households then census_data.total_households
                     else census_data.population
  let density_type := if use_households then "businesses_per_household"
                      else "businesses_per_capita"
  let density : ℚ := if 0 < denominator then (businesses_count : ℚ) / denominator else 0
  let levels :=
    if 1 / 100 < density then ("Very High", "Oversaturated")
    else if 5 / 1000 < density then ("High", "Saturated")
    else if 2 / 1000 < density then ("Moderate", "Competitive")
    else if 1 / 1000 < density then ("Low", "Opportunity")
    else ("Very Low", "Underserved")
  ({ business_density := density
     density_type := density_type
     density_level := levels.1
     market_saturation := levels.2
     population_base := denominator }, w2)

/-! ## The deduplicator / merger

Embedding of aggregate_business_data (backend/app/routers/intelligence.py).
The business dicts of that router carry nested contact and metrics dicts; the
fields the aggregator reads and writes are modelled.  String fields read with
.get default to the empty string, numeric ones to zero; Python set values are
modelled as first-occurrence-ordered duplicate-free lists. -/

structure Contact where
  website : String
  website_valid : Bool
  phone : String
  phone_valid : Bool
  email : String
  email_valid : Bool
deriving Repr, DecidableEq

structure Metrics where
  rating : ℚ
  review_count : ℕ
deriving Repr, DecidableEq

structure Biz where
  name : String
  contact : Contact
  metrics : Metrics
  data_sources : List String
  tags : List String
  source_count : ℕ
deriving Repr, DecidableEq

/-- The grouping key of one record: the name is stripped first, then
normalized (records with an all-whitespace name are skipped). -/
def bizKey (b : Biz) : String :=
  normKey (trimStr b.name)

/-- The skip test: business.get(name, empty).strip() is non-empty. -/
def goodB (b : Biz) : Bool :=
  trimStr b.name != ""

/-- Membership test for the group keyed k. -/
def groupPred (k : String) (b : Biz) : Bool :=
  goodB b && (bizKey b == k)

/-- Append a record to the group of its key in the insertion-ordered group
map (Python dicts preserve insertion order). -/
def insertGroup (acc : List (String × List Biz)) (k : String) (b : Biz) :
    List (String × List Biz) :=
  match acc with
  | [] => [(k, [b])]
  | (k2, g) :: rest =>
    if k2 = k then (k2, g ++ [b]) :: rest
    else (k2, g) :: insertGroup rest k b

/-- The grouping pass of aggregate_business_data. -/
def groupByKey (l : List Biz) : List (String × List Biz) :=
  l.foldl (fun acc b => if goodB b then insertGroup acc (bizKey b) b else acc) []

/-- The completeness key the base-record selection maximizes: the Python
tuple (len(website), len(phone), len(email), review_count). -/
def baseKey (b : Biz) : ℕ × ℕ × ℕ × ℕ :=
  (b.contact.website.length, b.contact.phone.length,
   b.contact.email.length, b.metrics.review_count)

/-- Lexicographic strict order on the completeness key: how Python compares
the tuples. -/
def keyLt (a b : ℕ × ℕ × ℕ × ℕ) : Prop :=
  a.1 < b.1 ∨ (a.1 = b.1 ∧ (a.2.1 < b.2.1 ∨ (a.2.1 = b.2.1 ∧
    (a.2.2.1 < b.2.2.1 ∨ (a.2.2.1 = b.2.2.1 ∧ a.2.2.2 < b.2.2.2)))))

instance (a b : ℕ × ℕ × ℕ × ℕ) : Decidable (keyLt a b) := by
  unfold keyLt; infer_instance

/-- max(group, key) over a non-empty group presented as head and tail:
Python max keeps the current maximum and replaces it only on a strictly
greater key, so the first of several maximal records wins. -/
def selectBase (h : Biz) (t : List Biz) : Biz :=
  t.foldl (fun cur x => if keyLt (baseKey cur) (baseKey x) then x else cur) h

/-- The fill-if-empty contact merge of one group member into the merge
state.  The source performs three sequential in-place updates (website,
phone, email, each carrying its validity flag along); as each update reads
and writes a disjoint pair of fields, they are rendered field-wise. -/
def mergeContact (c bc : Contact) : Contact :=
  { website := if c.website = "" ∧ bc.website ≠ "" then bc.website else c.website
    website_valid :=
      if c.website = "" ∧ bc.website ≠ "" then bc.website_valid else c.website_valid
    phone := if c.phone = "" ∧ bc.phone ≠ "" then bc.phone else c.phone
    phone_valid :=
      if c.phone = "" ∧ bc.phone ≠ "" then bc.phone_valid else c.phone_valid
    email := if c.email = "" ∧ bc.email ≠ "" then bc.email else c.email
    email_valid :=
      if c.email = "" ∧ bc.email ≠ "" then bc.email_valid else c.email_valid }

/-- The best-metrics merge: keep the larger rating and the larger review
count (strict comparisons, as in the source; the two sequential updates
touch disjoint fields and are rendered field-wise). -/
def mergeMetrics (m bm : Metrics) : Metrics :=
  { rating := if m.rating < bm.rating then bm.rating else m.rating
    review_count :=
      if m.review_count < bm.review_count then bm.review_count else m.review_count }

/-- set.update modelled on first-occurrence-ordered duplicate-free lists. -/
def dedupAppend (acc : List String) (xs : List String) : List String :=
  xs.foldl (fun a x => if x ∈ a then a else a ++ [x]) acc

/-- The union of the data_sources of a group. -/
def unionSources (g : List Biz) : List String :=
  g.foldl (fun a b => dedupAppend a b.data_sources) []

/-- The union of the tags of a group. -/
def unionTags (g : List Biz) : List String :=
  g.foldl (fun a b => dedupAppend a b.tags) []

/-- Merge one group, base record first: fold every member's contact and
metrics into the base's, overwrite the provenance fields with the group
unions and tag the result as aggregated. -/
def mergeGroup (base : Biz) (g : List Biz) : Biz :=
  let contact := g.foldl (fun c b => mergeContact c b.contact) base.contact
  let metrics := g.foldl (fun m b => mergeMetrics m b.metrics) base.metrics
  let sources := unionSources g
  { base with
    contact := contact
    metrics := metrics
    data_sources := sources
    source_count := sources.length
    tags := unionTags g ++ ["multi_source_aggregated"] }

/-- Merge a group if it is non-empty (the source skips empty groups, which
the grouping pass never produces anyway). -/
def mergeGroupOpt : List Biz → Option Biz
  | [] => none
  | h :: t => some (mergeGroup (selectBase h t) (h :: t))

/-- Embedding of aggregate_business_data: group by normalized name, merge
each group. -/
def aggregate_business_data (l : List Biz) : List Biz :=
  (groupByKey l).filterMap (fun kg => mergeGroupOpt kg.2)

/-! ## The relevance filter

Embedding of _is_relevant_business
(backend/app/routers/intelligence_working_fixed.py). -/

/-- The static industry keyword table (dict .get with default []). -/
def industry_keywords (industry_lower : String) : List String :=
  if industry_lower = "hvac" then
    ["hvac", "heating", "cooling", "air conditioning", "ac", "furnace",
     "heat pump", "ductwork", "ventilation", "climate control", "thermal",
     "refrigeration", "boiler", "geothermal"]
  else if industry_lower = "plumbing" then
    ["plumbing", "plumber", "pipe", "drain", "sewer", "water heater",
     "faucet", "toilet", "sink", "bathroom", "kitchen", "leak"]
  else if industry_lower = "electrical" then
    ["electric", "electrical", "electrician", "wiring", "circuit",
     "panel", "outlet", "lighting", "generator", "solar"]
  else if industry_lower = "landscaping" then
    ["landscape", "landscaping", "lawn", "garden", "tree", "grass",
     "irrigation", "sprinkler", "yard", "outdoor", "nursery"]
  else if industry_lower = "automotive" then
    ["auto", "car", "vehicle", "automotive", "repair", "service",
     "mechanic", "garage", "tire", "oil", "brake", "engine"]
  else if industry_lower = "restaurant" then
    ["restaurant", "cafe", "diner", "grill", "kitchen", "food",
     "dining", "bistro", "eatery", "pizza", "burger", "bar"]
  else []

/-- The exclusion keyword list.  NOTE: each Python conditional expression
binds only to the single string it follows, so only clinic, insurance and
entertainment are conditional on the industry; hospital, medical center,
bank, credit union, financial, museum, gallery and theater are excluded
unconditionally. -/
def exclusion_keywords (industry_lower : String) : List String :=
  ["church", "temple", "mosque", "synagogue", "religious", "ministry",
   "radio", "tv", "television", "broadcast", "media", "station",
   "school", "university", "college", "education", "library",
   "government", "city", "county", "state", "federal", "municipal",
   "hospital", "medical center",
   if industry_lower ≠ "healthcare" then "clinic" else "",
   "bank", "credit union", "financial",
   if industry_lower ≠ "accounting" ∧ industry_lower ≠ "financial" then "insurance" else "",
   "museum", "gallery", "theater",
   if industry_lower ≠ "entertainment" then "entertainment" else ""]

/-- The extra HVAC name patterns tried after the keyword table. -/
def hvac_patterns : List String :=
  ["heating", "cooling", "climate", "comfort", "thermal",
   "mechanical", "contractor"]

/-- One keyword test: word-boundary match for short keywords, substring
match for longer ones (cutoff 2 for table keywords, 3 for HVAC patterns). -/
def keywordHit (cutoff : ℕ) (name_lower kw : String) : Bool :=
  if kw.length ≤ cutoff then wordBoundarySearch name_lower kw
  else strContains name_lower kw

/-- Embedding of _is_relevant_business. -/
def _is_relevant_business (business_name industry : String) : Bool :=
  if business_name == "" || industry == "" then true
  else
    let name_lower := toLowerStr business_name
    let industry_lower := toLowerStr industry
    if (exclusion_keywords industry_lower).any
        (fun k => k != "" && strContains name_lower k) then false
    else
      let relevant_keywords := industry_keywords industry_lower
      if relevant_keywords.isEmpty then true
      else if relevant_keywords.any (fun kw => keywordHit 2 name_lower kw) then true
      else if industry_lower = "hvac" then
        hvac_patterns.any (fun p => keywordHit 3 name_lower p)
      else false

/-! ## Theorems

Shared helper lemmas come first; one theorem per claim follows, each under a
doc comment naming the claim. -/

/-- Any name containing an active (non-blank) exclusion keyword is rejected
by the relevance filter, whatever industry keywords it also contains. -/
lemma relevance_excluded (name industry : String) (hn : name ≠ "") (hi : industry ≠ "")
    (h : ∃ k ∈ exclusion_keywords (toLowerStr industry),
           k ≠ "" ∧ strContains (toLowerStr name) k = true) :
    _is_relevant_business name industry = false := by
  obtain ⟨k, hkmem, hkne, hkc⟩ := h
  unfold _is_relevant_business
  have h1 : (name == "" || industry == "") = false := by
    simp [hn, hi]
  have h2 : (exclusion_keywords (toLowerStr industry)).any
      (fun k => k != "" && strContains (toLowerStr name) k) = true := by
    rw [List.any_eq_true]
    exact ⟨k, hkmem, by simp [hkne, hkc]⟩
  simp [h1, h2]

/-- C8 counterexample: with industry healthcare, a name containing the
exclusion keyword hospital IS rejected by the filter, contradicting the
claim that it is not rejected on that ground. -/
theorem c8_hospital_counterexample :
    _is_relevant_business ("Mercy Hospital") ("healthcare") = false := by
  decide

/-- C8 (amended): a name containing an active exclusion keyword is always
rejected; the industry exception applies only to the keyword clinic for
industry healthcare (and insurance for accounting or financial,
entertainment for entertainment) — in particular hospital stays excluded
even when the industry is healthcare, while clinic is not. -/
theorem c8_exclusion_amended :
    (∀ name industry : String, name ≠ "" → industry ≠ "" →
      (∃ k ∈ exclusion_keywords (toLowerStr industry),
         k ≠ "" ∧ strContains (toLowerStr name) k = true) →
      _is_relevant_business name industry = false)
    ∧ (∀ name : String, name ≠ "" →
        strContains (toLowerStr name) ("hospital") = true →
        _is_relevant_business name ("healthcare") = false)
    ∧ (("clinic" ∉ exclusion_keywords ("healthcare"))
        ∧ _is_relevant_business ("Community Clinic") ("healthcare") = true) := by
  refine ⟨fun n i hn hi h => relevance_excluded n i hn hi h, ?_, by decide⟩
  intro name hn hc
  exact relevance_excluded name ("healthcare") hn (by decide)
    ⟨"hospital", by decide, by decide, hc⟩

/-- Witness for the amended C8 theorem at a concrete rejected name. -/
theorem c8_exclusion_amended_witness :
    ("Mercy Hospital" : String) ≠ "" ∧
    strContains (toLowerStr ("Mercy Hospital")) ("hospital") = true ∧
    _is_relevant_business ("Mercy Hospital") ("healthcare") = false :=
  ⟨by decide, by decide, c8_exclusion_amended.2.1 ("Mercy Hospital") (by decide) (by decide)⟩

/-- C7: the analytics calculators degrade to their documented fallbacks on
missing inputs: zero reviews and pictures give exactly the 150000 revenue
floor, an empty business list gives hhi_score 0, and a zero business count
gives density 0 (for every census state). -/
theorem analytics_fallbacks :
    (∀ (name industry : String) (af : Option AdditionalFactors),
       (calculate_revenue_estimate name 0 0 industry af).revenue_estimate = 150000)
    ∧ (∀ proxy : String, (calculate_hhi_index [] proxy).hhi_score = 0)
    ∧ (∀ (w : World) (location industry : String) (useH : Bool),
        ((calculate_business_density w 0 location industry useH).1).business_density = 0) := by
  refine ⟨?_, fun _ => rfl, ?_⟩
  · intro name industry af
    simp [calculate_revenue_estimate, logArg, Real.log_one]
  · intro w location industry useH
    simp only [calculate_business_density]
    split <;> simp

/-- If the location hits the static metro table, the census fetch returns
the same data under every random stream (it never draws). -/
lemma fetch_metro_deterministic (loc : String) (r1 r2 : List ℕ)
    (cache : List (String × CensusData))
    (h : (metro_census_data.lookup (toLowerStr loc)).isSome = true) :
    (fetch_census_acs_data loc ⟨r1, cache⟩).1 = (fetch_census_acs_data loc ⟨r2, cache⟩).1 := by
  unfold fetch_census_acs_data
  cases hc : cache.lookup (toLowerStr loc) with
  | some d => simp
  | none =>
    simp only
    unfold get_realistic_census_data
    obtain ⟨d, hd⟩ := Option.isSome_iff_exists.mp h
    simp [hd]

/-- C9 counterexample: the business-density calculator is not a pure function
of its arguments — two runs on the same count, location, industry and flag,
differing only in the hidden random-generator state, return different results
(already the population_base of the returned record differs). -/
theorem c9_density_state_counterexample :
    (calculate_business_density ⟨[0, 0, 0, 0], []⟩ 1 ("springfield") ("hvac") false).1.population_base
    ≠ (calculate_business_density ⟨[375000, 0, 0, 0], []⟩ 1 ("springfield") ("hvac") false).1.population_base := by
  decide

/-- C9 (amended): the HHI calculator and the revenue estimator read no hidden
state (their embeddings take none), but the density calculator is pure only
for locations of the static metro table: there its result does not depend on
the random stream; and it mutates cross-call state, growing the census cache
on every fresh location. -/
theorem c9_purity_amended :
    (∀ (r1 r2 : List ℕ) (cache : List (String × CensusData)) (count : ℕ)
       (loc ind : String) (useH : Bool),
       (metro_census_data.lookup (toLowerStr loc)).isSome = true →
       (calculate_business_density ⟨r1, cache⟩ count loc ind useH).1
         = (calculate_business_density ⟨r2, cache⟩ count loc ind useH).1)
    ∧ (∀ (r : List ℕ) (count : ℕ) (loc ind : String) (useH : Bool),
       ((calculate_business_density ⟨r, []⟩ count loc ind useH).2).population_cache ≠ []) := by
  constructor
  · intro r1 r2 cache count loc ind useH h
    have hf := fetch_metro_deterministic loc r1 r2 cache h
    simp only [calculate_business_density]
    rcases hf1 : fetch_census_acs_data loc ⟨r1, cache⟩ with ⟨d1, w1⟩
    rcases hf2 : fetch_census_acs_data loc ⟨r2, cache⟩ with ⟨d2, w2⟩
    rw [hf1, hf2] at hf
    simp only at hf
    subst hf
    rfl
  · intro r count loc ind useH
    simp only [calculate_business_density, fetch_census_acs_data]
    rcases hg : get_realistic_census_data loc r with ⟨d, rng2⟩
    simp [List.lookup]

/-- Witness for the amended C9 theorem at a metro location. -/
theorem c9_purity_amended_witness :
    (metro_census_data.lookup (toLowerStr ("Chicago"))).isSome = true ∧
    (calculate_business_density ⟨[], []⟩ 3 ("Chicago") ("hvac") false).1
      = (calculate_business_density ⟨[7, 7], []⟩ 3 ("Chicago") ("hvac") false).1 ∧
    ((calculate_business_density ⟨[], []⟩ 3 ("Chicago") ("hvac") false).2).population_cache ≠ [] :=
  ⟨by decide,
   c9_purity_amended.1 [] [7, 7] [] 3 ("Chicago") ("hvac") false (by decide),
   c9_purity_amended.2 [] 3 ("Chicago") ("hvac") false⟩

/-- A one-record input on which the deduplicator is not idempotent. -/
def bizJoe : Biz :=
  ⟨"Joes HVAC", ⟨"", false, "", false, "", false⟩, ⟨0, 0⟩, ["google_maps"], [], 1⟩

/-- C3 counterexample: running the deduplicator on its own output changes the
merged records — the second run appends a second multi_source_aggregated tag,
so the merged field values are not identical. -/
theorem c3_idempotence_counterexample :
    aggregate_business_data (aggregate_business_data [bizJoe])
      ≠ aggregate_business_data [bizJoe] := by
  decide

/-! ### Base-record selection (claim C4) -/

lemma keyLt_trans {a b c : ℕ × ℕ × ℕ × ℕ} (h1 : keyLt a b) (h2 : keyLt b c) :
    keyLt a c := by
  obtain ⟨a1, a2, a3, a4⟩ := a
  obtain ⟨b1, b2, b3, b4⟩ := b
  obtain ⟨c1, c2, c3, c4⟩ := c
  unfold keyLt at *
  omega

lemma keyLt_total (a b : ℕ × ℕ × ℕ × ℕ) : keyLt a b ∨ a = b ∨ keyLt b a := by
  obtain ⟨a1, a2, a3, a4⟩ := a
  obtain ⟨b1, b2, b3, b4⟩ := b
  unfold keyLt
  simp only [Prod.mk.injEq]
  omega

lemma keyLt_irrefl (a : ℕ × ℕ × ℕ × ℕ) : ¬ keyLt a a := by
  obtain ⟨a1, a2, a3, a4⟩ := a
  unfold keyLt
  omega

/-- The selection the spec describes once amended: the first record of the
group whose completeness key is lexicographically maximal. -/
def firstMax (h : Biz) (t : List Biz) : Biz :=
  match t with
  | [] => h
  | x :: rest =>
    let m := firstMax x rest
    if keyLt (baseKey h) (baseKey m) then m else h

lemma selectBase_cons (h x : Biz) (t : List Biz) :
    selectBase h (x :: t)
      = selectBase (if keyLt (baseKey h) (baseKey x) then x else h) t := by
  unfold selectBase
  simp [List.foldl_cons]

lemma firstMax_cons (a b : Biz) (l : List Biz) :
    firstMax a (b :: l)
      = if keyLt (baseKey a) (baseKey (firstMax b l)) then firstMax b l else a := by
  rfl

lemma firstMax_step (h x : Biz) (t : List Biz) :
    firstMax h (x :: t)
      = firstMax (if keyLt (baseKey h) (baseKey x) then x else h) t := by
  cases t with
  | nil =>
    by_cases hx : keyLt (baseKey h) (baseKey x) <;> simp [firstMax, hx]
  | cons y t2 =>
    rw [firstMax_cons h x (y :: t2), firstMax_cons x y t2,
        firstMax_cons (if keyLt (baseKey h) (baseKey x) then x else h) y t2]
    by_cases h1 : keyLt (baseKey x) (baseKey (firstMax y t2))
    · by_cases h2 : keyLt (baseKey h) (baseKey x)
      · have h3 : keyLt (baseKey h) (baseKey (firstMax y t2)) := keyLt_trans h2 h1
        simp [h1, h2, h3]
      · simp [h1, h2]
    · by_cases h2 : keyLt (baseKey h) (baseKey x)
      · simp [h1, h2]
      · have h3 : ¬ keyLt (baseKey h) (baseKey (firstMax y t2)) := by
          intro hc
          rcases keyLt_total (baseKey (firstMax y t2)) (baseKey x) with hmx | hmx | hmx
          · exact h2 (keyLt_trans hc hmx)
          · rw [hmx] at hc; exact h2 hc
          · exact h1 hmx
        simp [h1, h2, h3]

lemma selectBase_eq_firstMax (h : Biz) (t : List Biz) :
    selectBase h t = firstMax h t := by
  induction t generalizing h with
  | nil => rfl
  | cons x t2 ih =>
    rw [selectBase_cons, firstMax_step]
    exact ih _

lemma firstMax_mem (h : Biz) (t : List Biz) : firstMax h t ∈ h :: t := by
  induction t generalizing h with
  | nil => simp [firstMax]
  | cons x t2 ih =>
    simp only [firstMax]
    split
    · have := ih x
      simp only [List.mem_cons] at this ⊢
      tauto
    · simp

lemma firstMax_maximal (h : Biz) (t : List Biz) :
    ∀ b ∈ h :: t, ¬ keyLt (baseKey (firstMax h t)) (baseKey b) := by
  induction t generalizing h with
  | nil =>
    intro b hb
    simp only [List.mem_cons, List.not_mem_nil, or_false] at hb
    subst hb
    exact keyLt_irrefl _
  | cons x t2 ih =>
    intro b hb
    have hrec := ih x
    simp only [List.mem_cons] at hb
    simp only [firstMax]
    split
    · rename_i hlt
      rcases hb with rfl | hb2
      · intro hcon
        exact keyLt_irrefl _ (keyLt_trans hcon hlt)
      · exact hrec b (by simpa using hb2)
    · rename_i hnlt
      rcases hb with rfl | hb2
      · exact keyLt_irrefl _
      · intro hcon
        have hbm := hrec b (by simpa using hb2)
        rcases keyLt_total (baseKey b) (baseKey (firstMax x t2)) with hc | hc | hc
        · exact hnlt (keyLt_trans hcon hc)
        · rw [← hc] at hnlt; exact hnlt hcon
        · exact hbm hc

/-- The first element of h :: t whose completeness key is maximal: position i
holds the selected record and everything strictly before it has a strictly
smaller key. -/
lemma firstMax_first (h : Biz) (t : List Biz) :
    ∃ i : ℕ, (h :: t)[i]? = some (firstMax h t) ∧
      ∀ b ∈ (h :: t).take i, keyLt (baseKey b) (baseKey (firstMax h t)) := by
  induction t generalizing h with
  | nil => exact ⟨0, by simp [firstMax], by simp⟩
  | cons x t2 ih =>
    obtain ⟨i2, hget, hpre⟩ := ih x
    rw [firstMax_cons]
    by_cases hlt : keyLt (baseKey h) (baseKey (firstMax x t2))
    · refine ⟨i2 + 1, by simpa [if_pos hlt] using hget, ?_⟩
      simp only [if_pos hlt]
      intro b hb
      rcases List.mem_cons.mp (by simpa using hb) with rfl | hb2
      · exact hlt
      · exact hpre b hb2
    · exact ⟨0, by simp [if_neg hlt], by simp⟩

/-- The score the claim attributes to the base-record selection: the SUM of
the contact-field lengths and the review count (defined from the words of
the claim, to compare with what the code computes). -/
def sumScore (b : Biz) : ℕ :=
  b.contact.website.length + b.contact.phone.length
    + b.contact.email.length + b.metrics.review_count

/-- A record whose only asset is a two-character website. -/
def bizWebOnly : Biz :=
  ⟨"Acme", ⟨"ab", false, "", false, "", false⟩, ⟨0, 0⟩, [], [], 1⟩

/-- A record with a shorter website but far more contact data and reviews. -/
def bizRich : Biz :=
  ⟨"Acme", ⟨"a", false, "12345", false, "a@b.c", false⟩, ⟨0, 100⟩, [], [], 1⟩

/-- C4 counterexample: the deduplicator picks the record with the longer
website (Python tuple comparison is lexicographic), even though the other
record has a strictly larger sum len(website) + len(phone) + len(email) +
review_count — so the base record does NOT maximize the claimed sum. -/
theorem c4_sum_counterexample :
    selectBase bizWebOnly [bizRich] = bizWebOnly
      ∧ sumScore bizWebOnly < sumScore bizRich := by
  decide

/-- C4 (amended): the base record maximizes the completeness tuple
(len website, len phone, len email, review_count) lexicographically, not
the sum of its components; ties are still broken by input order — the
selection equals the first record of the group whose tuple is maximal. -/
theorem c4_base_selection_amended :
    ∀ (h : Biz) (t : List Biz),
      selectBase h t ∈ h :: t
      ∧ (∀ b ∈ h :: t, ¬ keyLt (baseKey (selectBase h t)) (baseKey b))
      ∧ (∃ i : ℕ, (h :: t)[i]? = some (selectBase h t) ∧
          ∀ b ∈ (h :: t).take i, keyLt (baseKey b) (baseKey (selectBase h t))) := by
  intro h t
  rw [selectBase_eq_firstMax]
  exact ⟨firstMax_mem h t, firstMax_maximal h t, firstMax_first h t⟩

/-- Witness for the amended C4 theorem at a concrete two-record group. -/
theorem c4_base_selection_amended_witness :
    selectBase bizWebOnly [bizRich] ∈ bizWebOnly :: [bizRich]
    ∧ (∀ b ∈ bizWebOnly :: [bizRich],
        ¬ keyLt (baseKey (selectBase bizWebOnly [bizRich])) (baseKey b))
    ∧ (∃ i : ℕ, (bizWebOnly :: [bizRich])[i]? = some (selectBase bizWebOnly [bizRich]) ∧
        ∀ b ∈ (bizWebOnly :: [bizRich]).take i,
          keyLt (baseKey b) (baseKey (selectBase bizWebOnly [bizRich]))) :=
  c4_base_selection_amended bizWebOnly [bizRich]

/-! ### HHI arithmetic (claims C1, C10) -/

lemma sum_map_div (l : List ℚ) (c : ℚ) :
    (l.map (fun x => x / c)).sum = l.sum / c := by
  induction l with
  | nil => simp
  | cons x t ih => simp [add_div, ih]

/-- The normalization step of calculate_hhi_index in isolation: divide by the
sum when positive, else equal shares over n slots. -/
def pctsOf (shares : List ℚ) (n : ℕ) : List ℚ :=
  if 0 < shares.sum then shares.map (fun s => s / shares.sum)
  else List.replicate n ((n : ℚ)⁻¹)

lemma sharePercentages_eq_pctsOf (bs : List MBiz) (proxy : String) (hne : bs ≠ []) :
    sharePercentages bs proxy = pctsOf (rawShares bs proxy) bs.length := by
  have hn : (0 : ℚ) < (bs.length : ℚ) := by
    have := List.length_pos.mpr hne
    exact_mod_cast this
  by_cases h : proxy = "revenue" ∨ proxy = "reviews_weighted" ∨ proxy = "chain_independent"
  · have ht : totalMarketValue bs proxy = (rawShares bs proxy).sum := by
      unfold totalMarketValue; rw [if_pos h]
    simp only [sharePercentages, pctsOf, ht]
  · have hshares : (rawShares bs proxy).map (fun s => s / 1)
        = rawShares bs proxy := by
      simp
    have hsum : (rawShares bs proxy).sum = 1 := by
      have hrepl : rawShares bs proxy
          = List.replicate bs.length ((bs.length : ℚ)⁻¹) := by
        unfold rawShares
        push_neg at h
        rw [if_neg h.1]
        refine (List.eq_replicate_of_mem ?_).trans (by rw [List.length_map])
        intro v hv
        rw [List.mem_map] at hv
        obtain ⟨b, _, rfl⟩ := hv
        unfold shareValue
        rw [if_neg h.1, if_neg h.2.1, if_neg h.2.2]
        exact one_div _
      rw [hrepl, List.sum_replicate, nsmul_eq_mul, mul_inv_cancel₀ (ne_of_gt hn)]
    have ht : totalMarketValue bs proxy = 1 := by
      unfold totalMarketValue; rw [if_neg h]
    simp only [sharePercentages, pctsOf, ht, hsum]

lemma pctsOf_sq_sum_bounds (shares : List ℚ) (n : ℕ) (hn : 0 < n)
    (hpos : ∀ x ∈ shares, 0 ≤ x) :
    0 ≤ ((pctsOf shares n).map (fun s => s ^ 2)).sum
      ∧ ((pctsOf shares n).map (fun s => s ^ 2)).sum ≤ 1 := by
  have hnq : (0 : ℚ) < (n : ℚ) := by exact_mod_cast hn
  constructor
  · exact List.sum_nonneg (by
      intro x hx
      rw [List.mem_map] at hx
      obtain ⟨p, _, rfl⟩ := hx
      exact sq_nonneg p)
  · unfold pctsOf
    split_ifs with hs
    · -- positive total: the shares normalize to a nonnegative list of sum one
      have hsum1 : ((shares.map (fun s => s / shares.sum)).sum) = 1 := by
        rw [sum_map_div, div_self (ne_of_gt hs)]
      have hmem : ∀ p ∈ shares.map (fun s => s / shares.sum), 0 ≤ p := by
        intro p hp
        rw [List.mem_map] at hp
        obtain ⟨s, hsm, rfl⟩ := hp
        exact div_nonneg (hpos s hsm) (le_of_lt hs)
      have hle1 : ∀ p ∈ shares.map (fun s => s / shares.sum), p ≤ 1 := by
        intro p hp
        calc p ≤ (shares.map (fun s => s / shares.sum)).sum :=
              List.single_le_sum hmem p hp
          _ = 1 := hsum1
      calc ((shares.map (fun s => s / shares.sum)).map (fun s => s ^ 2)).sum
          ≤ ((shares.map (fun s => s / shares.sum)).map (fun s => s)).sum := by
            refine List.sum_le_sum ?_
            intro p hp
            have h0 := hmem p hp
            have h1 := hle1 p hp
            nlinarith
        _ = 1 := by rw [List.map_id']; exact hsum1
    · -- degenerate total: equal shares 1/n
      rw [List.map_replicate, List.sum_replicate, nsmul_eq_mul]
      have heq : (n : ℚ) * ((n : ℚ)⁻¹) ^ 2 = (n : ℚ)⁻¹ := by
        field_simp
        ring
      rw [heq]
      have h1 : (1 : ℚ) ≤ (n : ℚ) := by exact_mod_cast Nat.one_le_iff_ne_zero.mpr (by omega)
      calc (n : ℚ)⁻¹ ≤ 1⁻¹ := by
            exact inv_le_inv_of_le (by norm_num) h1
        _ = 1 := inv_one

lemma pctsOf_sq_sum_len_le_one (shares : List ℚ) (hlen : shares.length ≤ 1) :
    ((pctsOf shares 1).map (fun s => s ^ 2)).sum = 1 := by
  match shares, hlen with
  | [], _ => simp [pctsOf]
  | [v], _ =>
    unfold pctsOf
    split_ifs with hs
    · have hv : v ≠ 0 := by
        intro hv0
        rw [List.sum_cons, List.sum_nil, hv0] at hs
        norm_num at hs
      simp [List.sum_cons, div_self (by simpa using hv)]
    · simp

lemma pctsOf_replicate_sq_sum (n : ℕ) (hn : 0 < n) (v : ℚ) :
    ((pctsOf (List.replicate n v) n).map (fun s => s ^ 2)).sum = (n : ℚ)⁻¹ := by
  have hnq : (0 : ℚ) < (n : ℚ) := by exact_mod_cast hn
  have hrep : ∀ c : ℚ, ((List.replicate n c).map (fun s => s ^ 2)).sum
      = (n : ℚ) * c ^ 2 := by
    intro c
    rw [List.map_replicate, List.sum_replicate, nsmul_eq_mul]
  unfold pctsOf
  rw [List.sum_replicate, nsmul_eq_mul]
  split_ifs with hs
  · have hv : v ≠ 0 := by
      intro hv0
      rw [hv0, mul_zero] at hs
      norm_num at hs
    rw [List.map_replicate, hrep]
    field_simp
    ring
  · rw [hrep]
    field_simp
    ring

lemma pctsOf_nil_sq_sum (n : ℕ) (hn : 0 < n) :
    ((pctsOf ([] : List ℚ) n).map (fun s => s ^ 2)).sum = (n : ℚ)⁻¹ := by
  have hnq : (0 : ℚ) < (n : ℚ) := by exact_mod_cast hn
  unfold pctsOf
  rw [List.sum_nil, if_neg (by norm_num)]
  rw [List.map_replicate, List.sum_replicate, nsmul_eq_mul]
  field_simp
  ring

lemma rawShares_nonneg (bs : List MBiz) (proxy : String)
    (hrat : ∀ b ∈ bs, 0 ≤ effRating b) :
    ∀ x ∈ rawShares bs proxy, 0 ≤ x := by
  intro x hx
  unfold rawShares at hx
  split_ifs at hx with hrev
  · rw [List.mem_filter] at hx
    have := of_decide_eq_true hx.2
    linarith
  · rw [List.mem_map] at hx
    obtain ⟨b, hb, rfl⟩ := hx
    unfold shareValue
    rw [if_neg hrev]
    split_ifs with h2 h3 h4
    · exact mul_nonneg (Nat.cast_nonneg _)
        (div_nonneg (hrat b hb) (by norm_num))
    · norm_num
    · norm_num
    · exact div_nonneg (by norm_num) (Nat.cast_nonneg _)

lemma hhi_score_eq (bs : List MBiz) (proxy : String) (hne : bs ≠ []) :
    (calculate_hhi_index bs proxy).hhi_score
      = ((pctsOf (rawShares bs proxy) bs.length).map (fun s => s ^ 2)).sum * 10000 := by
  unfold calculate_hhi_index
  rw [if_neg (by simpa using hne)]
  simp only
  rw [sharePercentages_eq_pctsOf bs proxy hne]

/-- C1: HHI bounds.  For every non-empty business list (with the ratings the
reviews_weighted proxy may consult being nonnegative, as ratings are),
0 <= hhi_score <= 10000; a single business scores exactly 10000; and when
every business contributes the same market-share value the score is exactly
10000 / N. -/
theorem c1_hhi_bounds (bs : List MBiz) (proxy : String) (hne : bs ≠ [])
    (hrat : ∀ b ∈ bs, 0 ≤ effRating b) :
    (0 ≤ (calculate_hhi_index bs proxy).hhi_score
      ∧ (calculate_hhi_index bs proxy).hhi_score ≤ 10000)
    ∧ (bs.length = 1 → (calculate_hhi_index bs proxy).hhi_score = 10000)
    ∧ ((∀ a ∈ bs, ∀ b ∈ bs,
          shareValue proxy bs.length a = shareValue proxy bs.length b)
        → (calculate_hhi_index bs proxy).hhi_score = 10000 / bs.length) := by
  have hn : 0 < bs.length := List.length_pos.mpr hne
  have hnq : (0 : ℚ) < (bs.length : ℚ) := by exact_mod_cast hn
  rw [hhi_score_eq bs proxy hne] at *
  refine ⟨?_, ?_, ?_⟩
  · obtain ⟨h0, h1⟩ :=
      pctsOf_sq_sum_bounds (rawShares bs proxy) bs.length hn
        (rawShares_nonneg bs proxy hrat)
    constructor
    · positivity
    · nlinarith
  · intro hlen
    have hlenshares : (rawShares bs proxy).length ≤ 1 := by
      unfold rawShares
      split_ifs
      · calc ((bs.map (shareValue proxy bs.length)).filter (fun r => decide (0 < r))).length
            ≤ (bs.map (shareValue proxy bs.length)).length := List.length_filter_le _ _
          _ = bs.length := List.length_map _ _
          _ = 1 := hlen
      · rw [List.length_map, hlen]
    rw [hlen]
    rw [pctsOf_sq_sum_len_le_one (rawShares bs proxy) hlenshares]
    norm_num
  · intro heq
    obtain ⟨hd, tl, rfl⟩ : ∃ hd tl, bs = hd :: tl := by
      cases bs with
      | nil => exact absurd rfl hne
      | cons hd tl => exact ⟨hd, tl, rfl⟩
    set n := (hd :: tl).length with hnn
    set v := shareValue proxy n hd with hv
    have hmapv : (hd :: tl).map (shareValue proxy n) = List.replicate n v := by
      refine (List.eq_replicate_of_mem ?_).trans (by rw [List.length_map])
      intro x hx
      rw [List.mem_map] at hx
      obtain ⟨b, hb, rfl⟩ := hx
      exact heq b hb hd (by simp)
    have hgoal : ((pctsOf (rawShares (hd :: tl) proxy) n).map (fun s => s ^ 2)).sum
        = (n : ℚ)⁻¹ := by
      unfold rawShares
      split_ifs with hrev
      · rw [hrev] at hmapv ⊢
        rw [hmapv]
        by_cases hvpos : (0 : ℚ) < v
        · have : (List.replicate n v).filter (fun r => decide (0 < r))
              = List.replicate n v := by
            rw [List.filter_eq_self]
            intro a ha
            rw [List.eq_of_mem_replicate ha]
            exact decide_eq_true hvpos
          rw [this]
          exact pctsOf_replicate_sq_sum n hn v
        · have : (List.replicate n v).filter (fun r => decide (0 < r)) = [] := by
            rw [List.filter_eq_nil]
            intro a ha
            rw [List.eq_of_mem_replicate ha]
            simpa using hvpos
          rw [this]
          exact pctsOf_nil_sq_sum n hn
      · rw [hmapv]
        exact pctsOf_replicate_sq_sum n hn v
    rw [hgoal]
    rw [inv_mul_eq_div]

/-- Concrete input for the C1 witness. -/
def c1bs : List MBiz :=
  [⟨"alpha", 200000, 0, 0, 0⟩, ⟨"beta", 600000, 10, 0, 5⟩]

/-- Witness for C1 at a concrete two-business market. -/
theorem c1_hhi_bounds_witness :
    0 ≤ (calculate_hhi_index c1bs ("revenue")).hhi_score
      ∧ (calculate_hhi_index c1bs ("revenue")).hhi_score ≤ 10000 :=
  (c1_hhi_bounds c1bs ("revenue") (by decide) (by decide)).1

/-- C10: under the revenue proxy, businesses without strictly positive
estimated_revenue contribute nothing to the market-share pool; when no
business has positive revenue the pool is empty and the calculator falls
back to equal shares, returning 10000 / n rather than 0 or an error. -/
theorem c10_nonpositive_revenue (bs : List MBiz) (hne : bs ≠ [])
    (hnp : ∀ b ∈ bs, b.estimated_revenue ≤ 0) :
    rawShares bs ("revenue") = []
    ∧ (calculate_hhi_index bs ("revenue")).hhi_score = 10000 / bs.length := by
  have hn : 0 < bs.length := List.length_pos.mpr hne
  have hnq : (0 : ℚ) < (bs.length : ℚ) := by exact_mod_cast hn
  have hempty : rawShares bs ("revenue") = [] := by
    unfold rawShares
    rw [if_pos rfl, List.filter_eq_nil]
    intro a ha
    rw [List.mem_map] at ha
    obtain ⟨b, hb, rfl⟩ := ha
    unfold shareValue
    rw [if_pos rfl]
    simpa using not_lt.mpr (hnp b hb)
  refine ⟨hempty, ?_⟩
  rw [hhi_score_eq bs ("revenue") hne, hempty, pctsOf_nil_sq_sum bs.length hn]
  rw [inv_mul_eq_div]

/-- Concrete input for the C10 witness. -/
def c10bs : List MBiz :=
  [⟨"alpha", 0, 3, 0, 4⟩, ⟨"beta", -5, 0, 0, 0⟩]

/-- Witness for C10 at a concrete no-revenue market. -/
theorem c10_nonpositive_revenue_witness :
    rawShares c10bs ("revenue") = []
    ∧ (calculate_hhi_index c10bs ("revenue")).hhi_score = 10000 / c10bs.length :=
  c10_nonpositive_revenue c10bs (by decide) (by decide)

/-! ### Revenue estimator (claim C6) -/

lemma lookup_mem_values {α β : Type} [BEq α] (l : List (α × β)) (k : α) (v : β)
    (h : l.lookup k = some v) : v ∈ l.map Prod.snd := by
  induction l with
  | nil => simp [List.lookup] at h
  | cons p t ih =>
    obtain ⟨a, b⟩ := p
    rw [List.lookup] at h
    cases hk : k == a with
    | true => rw [hk] at h; simp at h; simp [h]
    | false =>
      rw [hk] at h
      simp only at h
      exact List.mem_cons_of_mem _ (ih h)

lemma industry_coefficients_pos (key : String) :
    0 < (industry_coefficients key).1 ∧ 0 < (industry_coefficients key).2 := by
  unfold industry_coefficients
  cases hl : industry_coefficients_table.lookup key with
  | none => norm_num
  | some v =>
    have hv : v ∈ industry_coefficients_table.map Prod.snd :=
      lookup_mem_values _ _ _ hl
    have hall : ∀ x ∈ industry_coefficients_table.map Prod.snd,
        0 < x.1 ∧ 0 < x.2 := by decide
    simpa using hall v hv

lemma logArg_nonneg (n : ℤ) : 0 ≤ logArg n := by
  unfold logArg
  split_ifs with h
  · have hn : (0 : ℝ) ≤ (n : ℝ) := by exact_mod_cast h
    exact Real.log_nonneg (by linarith)
  · exact le_refl 0

lemma logArg_mono {a b : ℤ} (h : a ≤ b) : logArg a ≤ logArg b := by
  unfold logArg
  split_ifs with ha hb hb2
  · have ha2 : (0 : ℝ) ≤ (a : ℝ) := by exact_mod_cast ha
    have hab : (a : ℝ) ≤ (b : ℝ) := by exact_mod_cast h
    exact Real.log_le_log (by linarith) (by linarith)
  · exact absurd (ha.trans h) hb
  · have hb3 : (0 : ℝ) ≤ (b : ℝ) := by exact_mod_cast hb2
    exact Real.log_nonneg (by linarith)
  · exact le_refl 0

lemma revenue_estimate_eq (bn : String) (r p : ℤ) (ind : String)
    (af : Option AdditionalFactors) :
    (calculate_revenue_estimate bn r p ind af).revenue_estimate
      = max ((((industry_coefficients (industry_key ind)).1 : ℝ) * logArg r
              + ((industry_coefficients (industry_key ind)).2 : ℝ) * logArg p)
             * ((adjustment_factor af : ℚ) : ℝ)) 150000 := by
  rfl

/-- C6: holding the picture count, industry and additional factors fixed, the
revenue estimate is monotonically non-decreasing in the review count, and it
is always at least the 150000 floor. -/
theorem c6_revenue_monotone_floor (business_name : String) (p : ℤ)
    (industry : String) (af : Option AdditionalFactors) (r1 r2 : ℤ)
    (h : r1 ≤ r2) :
    (calculate_revenue_estimate business_name r1 p industry af).revenue_estimate
      ≤ (calculate_revenue_estimate business_name r2 p industry af).revenue_estimate
    ∧ (150000 : ℝ)
      ≤ (calculate_revenue_estimate business_name r1 p industry af).revenue_estimate := by
  obtain ⟨ha, hb⟩ := industry_coefficients_pos (industry_key industry)
  have haR : (0 : ℝ) ≤ ((industry_coefficients (industry_key industry)).1 : ℝ) := by
    exact_mod_cast le_of_lt ha
  have hbR : (0 : ℝ) ≤ ((industry_coefficients (industry_key industry)).2 : ℝ) := by
    exact_mod_cast le_of_lt hb
  rw [revenue_estimate_eq, revenue_estimate_eq]
  refine ⟨?_, le_max_right _ _⟩
  set A : ℝ := ((industry_coefficients (industry_key industry)).1 : ℝ)
  set B : ℝ := ((industry_coefficients (industry_key industry)).2 : ℝ)
  set adj : ℝ := ((adjustment_factor af : ℚ) : ℝ)
  have hbase : A * logArg r1 + B * logArg p ≤ A * logArg r2 + B * logArg p :=
    add_le_add_right (mul_le_mul_of_nonneg_left (logArg_mono h) haR) _
  have hbase1 : (0 : ℝ) ≤ A * logArg r1 + B * logArg p :=
    add_nonneg (mul_nonneg haR (logArg_nonneg r1)) (mul_nonneg hbR (logArg_nonneg p))
  rcases le_or_lt 0 adj with hadj | hadj
  · exact max_le_max (mul_le_mul_of_nonneg_right hbase hadj) le_rfl
  · have h1 : (A * logArg r1 + B * logArg p) * adj ≤ 0 :=
      mul_nonpos_of_nonneg_of_nonpos hbase1 (le_of_lt hadj)
    have h2 : (0 : ℝ) ≤ A * logArg r2 + B * logArg p :=
      add_nonneg (mul_nonneg haR (logArg_nonneg r2)) (mul_nonneg hbR (logArg_nonneg p))
    have h3 : (A * logArg r2 + B * logArg p) * adj ≤ 0 :=
      mul_nonpos_of_nonneg_of_nonpos h2 (le_of_lt hadj)
    rw [max_eq_right (h1.trans (by norm_num)), max_eq_right (h3.trans (by norm_num))]

/-- Witness for C6 at concrete review counts 1 and 2. -/
theorem c6_revenue_monotone_floor_witness :
    (1 : ℤ) ≤ 2
    ∧ ((calculate_revenue_estimate ("Joes HVAC") 1 0 ("hvac") none).revenue_estimate
        ≤ (calculate_revenue_estimate ("Joes HVAC") 2 0 ("hvac") none).revenue_estimate
      ∧ (150000 : ℝ)
        ≤ (calculate_revenue_estimate ("Joes HVAC") 1 0 ("hvac") none).revenue_estimate) :=
  ⟨by decide, c6_revenue_monotone_floor ("Joes HVAC") 0 ("hvac") none 1 2 (by decide)⟩

/-! ### Deduplicator infrastructure (claims C2, C3, C5) -/

lemma dedupAppend_cons (acc : List String) (x : String) (t : List String) :
    dedupAppend acc (x :: t) = dedupAppend (if x ∈ acc then acc else acc ++ [x]) t := by
  simp [dedupAppend]

lemma dedupAppend_nil (acc : List String) : dedupAppend acc [] = acc := rfl

lemma dedupAppend_nodup (xs : List String) :
    ∀ acc : List String, acc.Nodup → (dedupAppend acc xs).Nodup := by
  induction xs with
  | nil => intro acc h; exact h
  | cons x t ih =>
    intro acc h
    rw [dedupAppend_cons]
    split_ifs with hx
    · exact ih acc h
    · refine ih (acc ++ [x]) ?_
      rw [List.nodup_append]
      exact ⟨h, List.nodup_singleton x, by
        intro a ha hax
        rw [List.mem_singleton] at hax
        subst hax
        exact hx ha⟩

lemma dedupAppend_mem (xs : List String) :
    ∀ (acc : List String) (y : String),
      y ∈ dedupAppend acc xs ↔ y ∈ acc ∨ y ∈ xs := by
  induction xs with
  | nil => intro acc y; simp [dedupAppend_nil]
  | cons x t ih =>
    intro acc y
    rw [dedupAppend_cons]
    split_ifs with hx
    · rw [ih]
      constructor
      · rintro (h | h)
        · exact Or.inl h
        · exact Or.inr (List.mem_cons_of_mem _ h)
      · rintro (h | h)
        · exact Or.inl h
        · rcases List.mem_cons.mp h with rfl | h2
          · exact Or.inl hx
          · exact Or.inr h2
    · rw [ih]
      simp only [List.mem_append, List.mem_singleton, List.mem_cons]
      tauto

lemma dedupAppend_of_fresh (xs : List String) :
    ∀ acc : List String, xs.Nodup → (∀ x ∈ xs, x ∉ acc) →
      dedupAppend acc xs = acc ++ xs := by
  induction xs with
  | nil => intro acc _ _; simp [dedupAppend_nil]
  | cons x t ih =>
    intro acc hnd hfresh
    rw [dedupAppend_cons, if_neg (hfresh x (by simp))]
    rw [ih (acc ++ [x]) (List.nodup_cons.mp hnd).2 ?_]
    · simp
    · intro y hy
      rw [List.mem_append, List.mem_singleton]
      rintro (hya | rfl)
      · exact hfresh y (List.mem_cons_of_mem _ hy) hya
      · exact (List.nodup_cons.mp hnd).1 hy

/-- A generic union fold over a group, as used for sources and tags. -/
lemma foldl_dedupAppend_nodup (f : Biz → List String) (g : List Biz) :
    ∀ acc : List String, acc.Nodup →
      (g.foldl (fun a b => dedupAppend a (f b)) acc).Nodup := by
  induction g with
  | nil => intro acc h; exact h
  | cons b t ih =>
    intro acc h
    rw [List.foldl_cons]
    exact ih _ (dedupAppend_nodup (f b) acc h)

lemma foldl_dedupAppend_mem (f : Biz → List String) (g : List Biz) :
    ∀ (acc : List String) (y : String),
      y ∈ g.foldl (fun a b => dedupAppend a (f b)) acc
        ↔ y ∈ acc ∨ ∃ b ∈ g, y ∈ f b := by
  induction g with
  | nil => intro acc y; simp
  | cons b t ih =>
    intro acc y
    rw [List.foldl_cons, ih, dedupAppend_mem]
    simp only [List.mem_cons]
    constructor
    · rintro ((h | h) | ⟨b2, hb2, h⟩)
      · exact Or.inl h
      · exact Or.inr ⟨b, Or.inl rfl, h⟩
      · exact Or.inr ⟨b2, Or.inr hb2, h⟩
    · rintro (h | ⟨b2, (rfl | hb2), h⟩)
      · exact Or.inl (Or.inl h)
      · exact Or.inl (Or.inr h)
      · exact Or.inr ⟨b2, hb2, h⟩

lemma unionSources_nodup (g : List Biz) : (unionSources g).Nodup :=
  foldl_dedupAppend_nodup (fun b => b.data_sources) g [] List.nodup_nil

lemma unionSources_mem (g : List Biz) (y : String) :
    y ∈ unionSources g ↔ ∃ b ∈ g, y ∈ b.data_sources := by
  have := foldl_dedupAppend_mem (fun b => b.data_sources) g [] y
  simpa [unionSources] using this

lemma unionTags_mem (g : List Biz) (y : String) :
    y ∈ unionTags g ↔ ∃ b ∈ g, y ∈ b.tags := by
  have := foldl_dedupAppend_mem (fun b => b.tags) g [] y
  simpa [unionTags] using this

lemma mergeContact_fields (c bc : Contact) :
    ((mergeContact c bc).website = c.website ∨ (mergeContact c bc).website = bc.website)
    ∧ ((mergeContact c bc).phone = c.phone ∨ (mergeContact c bc).phone = bc.phone)
    ∧ ((mergeContact c bc).email = c.email ∨ (mergeContact c bc).email = bc.email) := by
  unfold mergeContact
  split_ifs <;> simp

lemma mergeContact_self (c : Contact) : mergeContact c c = c := by
  unfold mergeContact
  split_ifs <;> first | rfl | simp_all

lemma mergeMetrics_review (m bm : Metrics) :
    (mergeMetrics m bm).review_count = max m.review_count bm.review_count := by
  unfold mergeMetrics
  simp only
  split_ifs <;> omega

lemma mergeMetrics_self (m : Metrics) : mergeMetrics m m = m := by
  unfold mergeMetrics
  simp

lemma foldl_mergeContact_provenance (g : List Biz) :
    ∀ c0 : Contact,
      ((g.foldl (fun c b => mergeContact c b.contact) c0).website = c0.website
        ∨ ∃ b ∈ g, (g.foldl (fun c b => mergeContact c b.contact) c0).website
            = b.contact.website)
      ∧ ((g.foldl (fun c b => mergeContact c b.contact) c0).phone = c0.phone
        ∨ ∃ b ∈ g, (g.foldl (fun c b => mergeContact c b.contact) c0).phone
            = b.contact.phone)
      ∧ ((g.foldl (fun c b => mergeContact c b.contact) c0).email = c0.email
        ∨ ∃ b ∈ g, (g.foldl (fun c b => mergeContact c b.contact) c0).email
            = b.contact.email) := by
  induction g with
  | nil => intro c0; simp
  | cons b t ih =>
    intro c0
    rw [List.foldl_cons]
    obtain ⟨ihw, ihp, ihe⟩ := ih (mergeContact c0 b.contact)
    obtain ⟨mw, mp, me⟩ := mergeContact_fields c0 b.contact
    refine ⟨?_, ?_, ?_⟩
    · rcases ihw with h | ⟨b2, hb2, h⟩
      · rcases mw with h2 | h2
        · exact Or.inl (h.trans h2)
        · exact Or.inr ⟨b, by simp, h.trans h2⟩
      · exact Or.inr ⟨b2, List.mem_cons_of_mem _ hb2, h⟩
    · rcases ihp with h | ⟨b2, hb2, h⟩
      · rcases mp with h2 | h2
        · exact Or.inl (h.trans h2)
        · exact Or.inr ⟨b, by simp, h.trans h2⟩
      · exact Or.inr ⟨b2, List.mem_cons_of_mem _ hb2, h⟩
    · rcases ihe with h | ⟨b2, hb2, h⟩
      · rcases me with h2 | h2
        · exact Or.inl (h.trans h2)
        · exact Or.inr ⟨b, by simp, h.trans h2⟩
      · exact Or.inr ⟨b2, List.mem_cons_of_mem _ hb2, h⟩

lemma foldl_mergeMetrics_review (g : List Biz) :
    ∀ m0 : Metrics,
      (g.foldl (fun m b => mergeMetrics m b.metrics) m0).review_count
        = g.foldl (fun a b => max a b.metrics.review_count) m0.review_count := by
  induction g with
  | nil => intro m0; rfl
  | cons b t ih =>
    intro m0
    rw [List.foldl_cons, List.foldl_cons, ih, mergeMetrics_review]

lemma foldl_max_init (l : List Biz) : ∀ a : ℕ,
    l.foldl (fun acc b => max acc b.metrics.review_count) a
      = max a (l.foldl (fun acc b => max acc b.metrics.review_count) 0) := by
  induction l with
  | nil => intro a; simp
  | cons x t ih =>
    intro a
    rw [List.foldl_cons, List.foldl_cons,
        ih (max a x.metrics.review_count), ih (max 0 x.metrics.review_count)]
    simp only [Nat.zero_max]
    rw [Nat.max_assoc]

lemma elem_le_foldl_max (g : List Biz) (b0 : Biz) (hb : b0 ∈ g) :
    b0.metrics.review_count
      ≤ g.foldl (fun a b => max a b.metrics.review_count) 0 := by
  induction g with
  | nil => simp at hb
  | cons b t ih =>
    rw [List.foldl_cons, foldl_max_init]
    rcases List.mem_cons.mp hb with rfl | hb2
    · exact le_max_of_le_left (by simp)
    · exact le_max_of_le_right (ih hb2)

/-- The distinct grouping keys of an input, in first-occurrence order. -/
def keysOf (l : List Biz) : List String :=
  dedupAppend [] ((l.filter goodB).map bizKey)

lemma keysOf_nodup (l : List Biz) : (keysOf l).Nodup :=
  dedupAppend_nodup _ [] List.nodup_nil

lemma keysOf_mem (l : List Biz) (k : String) :
    k ∈ keysOf l ↔ ∃ b ∈ l, goodB b = true ∧ bizKey b = k := by
  unfold keysOf
  rw [dedupAppend_mem]
  simp only [List.not_mem_nil, false_or, List.mem_map, List.mem_filter]
  constructor
  · rintro ⟨b, ⟨hbl, hbg⟩, rfl⟩
    exact ⟨b, hbl, hbg, rfl⟩
  · rintro ⟨b, hbl, hbg, rfl⟩
    exact ⟨b, ⟨hbl, hbg⟩, rfl⟩

lemma dedupAppend_append (acc xs ys : List String) :
    dedupAppend acc (xs ++ ys) = dedupAppend (dedupAppend acc xs) ys := by
  simp [dedupAppend, List.foldl_append]

lemma keysOf_append_good (l : List Biz) (b : Biz) (hb : goodB b = true) :
    keysOf (l ++ [b])
      = if bizKey b ∈ keysOf l then keysOf l else keysOf l ++ [bizKey b] := by
  unfold keysOf
  rw [List.filter_append, List.map_append, dedupAppend_append]
  have : (List.filter goodB [b]).map bizKey = [bizKey b] := by
    simp [hb]
  rw [this, dedupAppend_cons, dedupAppend_nil]

lemma keysOf_append_bad (l : List Biz) (b : Biz) (hb : ¬ goodB b = true) :
    keysOf (l ++ [b]) = keysOf l := by
  unfold keysOf
  rw [List.filter_append, List.map_append]
  have : (List.filter goodB [b]).map bizKey = [] := by
    simp [hb]
  rw [this, dedupAppend_append, dedupAppend_nil]

lemma insertGroup_fresh (k : String) (b : Biz) :
    ∀ acc : List (String × List Biz), (∀ p ∈ acc, p.1 ≠ k) →
      insertGroup acc k b = acc ++ [(k, [b])] := by
  intro acc
  induction acc with
  | nil => intro _; rfl
  | cons p t ih =>
    intro h
    obtain ⟨k2, g⟩ := p
    unfold insertGroup
    rw [if_neg (h (k2, g) (by simp))]
    rw [ih (fun q hq => h q (List.mem_cons_of_mem _ hq))]
    rfl

lemma insertGroup_update (k : String) (b : Biz) (g : List Biz)
    (acc2 : List (String × List Biz)) :
    ∀ acc1 : List (String × List Biz), (∀ p ∈ acc1, p.1 ≠ k) →
      insertGroup (acc1 ++ (k, g) :: acc2) k b = acc1 ++ (k, g ++ [b]) :: acc2 := by
  intro acc1
  induction acc1 with
  | nil =>
    intro _
    simp only [List.nil_append]
    unfold insertGroup
    rw [if_pos rfl]
  | cons p t ih =>
    intro h
    obtain ⟨k2, g2⟩ := p
    simp only [List.cons_append]
    unfold insertGroup
    rw [if_neg (h (k2, g2) (by simp))]
    rw [ih (fun q hq => h q (List.mem_cons_of_mem _ hq))]

lemma groupByKey_append (l : List Biz) (b : Biz) :
    groupByKey (l ++ [b])
      = if goodB b then insertGroup (groupByKey l) (bizKey b) b
        else groupByKey l := by
  unfold groupByKey
  rw [List.foldl_append]
  rfl

lemma filter_append_single (l : List Biz) (b : Biz) (p : Biz → Bool) :
    List.filter p (l ++ [b])
      = List.filter p l ++ (if p b then [b] else []) := by
  rw [List.filter_append]
  congr 1
  by_cases hb : p b <;> simp [hb]

/-- The grouping pass computes, key by key in first-occurrence order, the
sublist of records of that key. -/
lemma groupByKey_eq_spec (l : List Biz) :
    groupByKey l = (keysOf l).map (fun k => (k, l.filter (groupPred k))) := by
  induction l using List.reverseRecOn with
  | nil => rfl
  | append_singleton l b ih =>
    rw [groupByKey_append]
    by_cases hb : goodB b = true
    · rw [if_pos hb, ih]
      by_cases hk : bizKey b ∈ keysOf l
      · -- the key exists: its group gains b at the end
        obtain ⟨ks1, ks2, hks⟩ := List.append_of_mem hk
        have hnd := keysOf_nodup l
        rw [hks] at hnd
        have hnot1 : bizKey b ∉ ks1 := by
          intro hin
          have hdisj := (List.nodup_append.mp hnd).2.2
          exact hdisj hin (by simp)
        have hnot2 : bizKey b ∉ ks2 := by
          have := (List.nodup_append.mp hnd).2.1
          exact (List.nodup_cons.mp this).1
        rw [hks, List.map_append, List.map_cons]
        rw [insertGroup_update _ _ _ _ _ (by
          intro p hp
          rw [List.mem_map] at hp
          obtain ⟨k2, hk2, rfl⟩ := hp
          intro hq
          exact hnot1 (hq ▸ hk2))]
        rw [keysOf_append_good l b hb, if_pos hk, hks]
        rw [List.map_append, List.map_cons]
        congr 1
        · refine List.map_congr_left ?_
          intro k2 hk2
          have hne : bizKey b ≠ k2 := fun hq => hnot1 (hq ▸ hk2)
          rw [filter_append_single]
          rw [if_neg (by simp [groupPred, hne]), List.append_nil]
        · congr 1
          · rw [filter_append_single, if_pos (by simp [groupPred, hb])]
          · refine List.map_congr_left ?_
            intro k2 hk2
            have hne : bizKey b ≠ k2 := fun hq => hnot2 (hq ▸ hk2)
            rw [filter_append_single]
            rw [if_neg (by simp [groupPred, hne]), List.append_nil]
      · -- fresh key: a new singleton group is appended
        rw [insertGroup_fresh _ _ _ (by
          intro p hp
          rw [List.mem_map] at hp
          obtain ⟨k2, hk2, rfl⟩ := hp
          intro hq
          exact hk (hq ▸ hk2))]
        rw [keysOf_append_good l b hb, if_neg hk]
        rw [List.map_append, List.map_singleton]
        congr 1
        · refine List.map_congr_left ?_
          intro k2 hk2
          have hne : bizKey b ≠ k2 := fun hq => hk (hq ▸ hk2)
          rw [filter_append_single]
          rw [if_neg (by simp [groupPred, hne]), List.append_nil]
        · have hnil : l.filter (groupPred (bizKey b)) = [] := by
            rw [List.filter_eq_nil]
            intro a ha hpa
            refine hk ((keysOf_mem l (bizKey b)).mpr ⟨a, ha, ?_, ?_⟩)
            · exact (Bool.and_eq_true _ _ |>.mp hpa).1
            · have := (Bool.and_eq_true _ _ |>.mp hpa).2
              simpa using this
          rw [filter_append_single, if_pos (by simp [groupPred, hb]), hnil]
          rfl
    · rw [if_neg hb, ih, keysOf_append_bad l b hb]
      refine List.map_congr_left ?_
      intro k2 hk2
      rw [filter_append_single]
      rw [if_neg (by simp [groupPred, hb]), List.append_nil]

lemma mergeGroupOpt_cons (h : Biz) (t : List Biz) :
    mergeGroupOpt (h :: t) = some (mergeGroup (selectBase h t) (h :: t)) := rfl

/-- Every output of the deduplicator is the merge of the non-empty group of
input records sharing one key of the input. -/
lemma aggregate_mem_char (l : List Biz) (m : Biz)
    (hm : m ∈ aggregate_business_data l) :
    ∃ k, k ∈ keysOf l ∧ ∃ h t, l.filter (groupPred k) = h :: t
      ∧ m = mergeGroup (selectBase h t) (h :: t) := by
  unfold aggregate_business_data at hm
  rw [groupByKey_eq_spec, List.filterMap_map] at hm
  rw [List.mem_filterMap] at hm
  obtain ⟨k, hk, hsome⟩ := hm
  refine ⟨k, hk, ?_⟩
  cases hg : l.filter (groupPred k) with
  | nil =>
    rw [Function.comp_apply, hg] at hsome
    simp [mergeGroupOpt] at hsome
  | cons h t =>
    rw [Function.comp_apply, hg, mergeGroupOpt_cons] at hsome
    rw [Option.some.injEq] at hsome
    exact ⟨h, t, rfl, hsome.symm⟩

lemma groupPred_key {k : String} {b : Biz} (h : groupPred k b = true) :
    goodB b = true ∧ bizKey b = k := by
  obtain ⟨h1, h2⟩ := Bool.and_eq_true _ _ |>.mp h
  exact ⟨h1, by simpa using h2⟩

lemma selectBase_mem (h : Biz) (t : List Biz) : selectBase h t ∈ h :: t := by
  rw [selectBase_eq_firstMax]; exact firstMax_mem h t

/-- The merged record keeps the name of its base record, hence the key of
its group. -/
lemma merged_key (k : String) (l : List Biz) (h : Biz) (t : List Biz)
    (hg : l.filter (groupPred k) = h :: t) :
    bizKey (mergeGroup (selectBase h t) (h :: t)) = k
    ∧ goodB (mergeGroup (selectBase h t) (h :: t)) = true := by
  have hbase : selectBase h t ∈ l.filter (groupPred k) := by
    rw [hg]; exact selectBase_mem h t
  have hpred := (List.mem_filter.mp hbase).2
  obtain ⟨hgood, hkey⟩ := groupPred_key hpred
  have hname : (mergeGroup (selectBase h t) (h :: t)).name = (selectBase h t).name := rfl
  constructor
  · rw [show bizKey (mergeGroup (selectBase h t) (h :: t))
        = bizKey (selectBase h t) from by unfold bizKey; rw [hname]]
    exact hkey
  · rw [show goodB (mergeGroup (selectBase h t) (h :: t))
        = goodB (selectBase h t) from by unfold goodB; rw [hname]]
    exact hgood

lemma filterMap_eq_map_of_some {α β : Type} (l : List α) (f : α → Option β)
    (g : α → β) (h : ∀ a ∈ l, f a = some (g a)) : l.filterMap f = l.map g := by
  induction l with
  | nil => rfl
  | cons a t ih =>
    rw [List.filterMap_cons, h a (by simp), List.map_cons,
        ih (fun x hx => h x (List.mem_cons_of_mem _ hx))]

/-- Every key of the input owns a non-empty group. -/
lemma keysOf_group_ne (l : List Biz) (k : String) (hk : k ∈ keysOf l) :
    ∃ h t, l.filter (groupPred k) = h :: t := by
  obtain ⟨b, hbl, hbg, hbk⟩ := (keysOf_mem l k).mp hk
  have hbf : b ∈ l.filter (groupPred k) := by
    rw [List.mem_filter]
    exact ⟨hbl, by simp [groupPred, hbg, hbk]⟩
  cases hg : l.filter (groupPred k) with
  | nil => rw [hg] at hbf; simp at hbf
  | cons h t => exact ⟨h, t, rfl⟩

lemma filterMap_merge_keys (l : List Biz) :
    ∀ ks : List String, (∀ k ∈ ks, ∃ h t, l.filter (groupPred k) = h :: t) →
      ((ks.filterMap
        ((fun kg => mergeGroupOpt kg.2)
          ∘ fun k => (k, l.filter (groupPred k)))).map bizKey) = ks := by
  intro ks
  induction ks with
  | nil => intro _; rfl
  | cons k ks ih =>
    intro hne
    obtain ⟨h, t, hg⟩ := hne k (by simp)
    rw [List.filterMap_cons]
    rw [show ((fun kg => mergeGroupOpt kg.2)
          ∘ fun k => (k, l.filter (groupPred k))) k
        = some (mergeGroup (selectBase h t) (h :: t)) from by
      show mergeGroupOpt (l.filter (groupPred k))
        = some (mergeGroup (selectBase h t) (h :: t))
      rw [hg, mergeGroupOpt_cons]]
    rw [List.map_cons]
    rw [ih (fun k2 hk2 => hne k2 (List.mem_cons_of_mem _ hk2))]
    rw [(merged_key k l h t hg).1]

/-- The merged outputs carry exactly the input keys, in order. -/
lemma aggregate_keys (l : List Biz) :
    (aggregate_business_data l).map bizKey = keysOf l := by
  unfold aggregate_business_data
  rw [groupByKey_eq_spec, List.filterMap_map]
  exact filterMap_merge_keys l (keysOf l) (keysOf_group_ne l)

/-- C2: each merged business counts exactly its distinct sources, the source
set is non-empty whenever every input record carries a source, each contact
field present in the merge is the corresponding field of some record of its
group, and no two merged businesses share a normalized-name key. -/
theorem c2_merge_invariants (l : List Biz)
    (hsrc : ∀ b ∈ l, b.data_sources ≠ []) :
    (∀ m ∈ aggregate_business_data l,
      m.source_count = m.data_sources.length
      ∧ m.data_sources.Nodup
      ∧ m.data_sources ≠ []
      ∧ (m.contact.website ≠ "" → ∃ b ∈ l,
          groupPred (bizKey m) b = true ∧ b.contact.website = m.contact.website)
      ∧ (m.contact.phone ≠ "" → ∃ b ∈ l,
          groupPred (bizKey m) b = true ∧ b.contact.phone = m.contact.phone)
      ∧ (m.contact.email ≠ "" → ∃ b ∈ l,
          groupPred (bizKey m) b = true ∧ b.contact.email = m.contact.email))
    ∧ ((aggregate_business_data l).map bizKey).Nodup := by
  constructor
  · intro m hm
    obtain ⟨k, hk, h, t, hg, rfl⟩ := aggregate_mem_char l m hm
    have hkm := (merged_key k l h t hg).1
    have hbase : selectBase h t ∈ h :: t := selectBase_mem h t
    have hmem : ∀ b ∈ h :: t, b ∈ l ∧ groupPred k b = true := by
      intro b hb
      have : b ∈ l.filter (groupPred k) := by rw [hg]; exact hb
      exact List.mem_filter.mp this
    refine ⟨rfl, ?_, ?_, ?_, ?_, ?_⟩
    · exact unionSources_nodup (h :: t)
    · have hh := hmem h (by simp)
      obtain ⟨s, hs⟩ := List.exists_mem_of_ne_nil _ (hsrc h hh.1)
      have : s ∈ unionSources (h :: t) :=
        (unionSources_mem _ s).mpr ⟨h, by simp, hs⟩
      exact List.ne_nil_of_mem this
    · intro _
      obtain ⟨hw, _, _⟩ := foldl_mergeContact_provenance (h :: t) (selectBase h t).contact
      rcases hw with hw | ⟨b, hb, hw⟩
      · obtain ⟨hbl, hbp⟩ := hmem _ hbase
        exact ⟨selectBase h t, hbl, hkm ▸ hbp, hw.symm⟩
      · obtain ⟨hbl, hbp⟩ := hmem b hb
        exact ⟨b, hbl, hkm ▸ hbp, hw.symm⟩
    · intro _
      obtain ⟨_, hp, _⟩ := foldl_mergeContact_provenance (h :: t) (selectBase h t).contact
      rcases hp with hp | ⟨b, hb, hp⟩
      · obtain ⟨hbl, hbp⟩ := hmem _ hbase
        exact ⟨selectBase h t, hbl, hkm ▸ hbp, hp.symm⟩
      · obtain ⟨hbl, hbp⟩ := hmem b hb
        exact ⟨b, hbl, hkm ▸ hbp, hp.symm⟩
    · intro _
      obtain ⟨_, _, he⟩ := foldl_mergeContact_provenance (h :: t) (selectBase h t).contact
      rcases he with he | ⟨b, hb, he⟩
      · obtain ⟨hbl, hbp⟩ := hmem _ hbase
        exact ⟨selectBase h t, hbl, hkm ▸ hbp, he.symm⟩
      · obtain ⟨hbl, hbp⟩ := hmem b hb
        exact ⟨b, hbl, hkm ▸ hbp, he.symm⟩
  · rw [aggregate_keys]
    exact keysOf_nodup l

/-- Concrete two-source input for the C2 witness (two sightings of the same
business under differently punctuated names). -/
def c2l : List Biz :=
  [⟨"Joes HVAC", ⟨"", false, "", false, "", false⟩, ⟨5, 80⟩,
    ["google_maps"], ["g"], 1⟩,
   ⟨"Joes Hvac!", ⟨"https://joeshvac.com", true, "217-555-0100", true, "", false⟩,
    ⟨0, 0⟩, ["yelp"], ["y"], 1⟩]

/-- Witness for C2 on the concrete input. -/
theorem c2_merge_invariants_witness :
    (∀ b ∈ c2l, b.data_sources ≠ [])
    ∧ ((aggregate_business_data c2l).map bizKey).Nodup :=
  ⟨by decide, (c2_merge_invariants c2l (by decide)).2⟩

/-- C5: the merged review count is the maximum single-source review count of
the group, never its sum: it equals the running maximum of the group and
bounds every member. -/
theorem c5_review_count_max (l : List Biz) (m : Biz)
    (hm : m ∈ aggregate_business_data l) :
    m.metrics.review_count
      = (l.filter (groupPred (bizKey m))).foldl
          (fun a b => max a b.metrics.review_count) 0
    ∧ ∀ b ∈ l.filter (groupPred (bizKey m)),
        b.metrics.review_count ≤ m.metrics.review_count := by
  obtain ⟨k, hk, h, t, hg, rfl⟩ := aggregate_mem_char l m hm
  have hkm := (merged_key k l h t hg).1
  rw [hkm, hg]
  have hrc : (mergeGroup (selectBase h t) (h :: t)).metrics.review_count
      = (h :: t).foldl (fun a b => max a b.metrics.review_count) 0 := by
    have h1 : (mergeGroup (selectBase h t) (h :: t)).metrics.review_count
        = ((h :: t).foldl (fun mm b => mergeMetrics mm b.metrics)
            (selectBase h t).metrics).review_count := rfl
    rw [h1, foldl_mergeMetrics_review, foldl_max_init]
    exact Nat.max_eq_right (elem_le_foldl_max _ _ (selectBase_mem h t))
  refine ⟨hrc, ?_⟩
  intro b hb
  rw [hrc]
  exact elem_le_foldl_max _ _ hb

/-- Concrete input and merged output for the C5 witness. -/
def c5m : Biz :=
  ⟨"Joes Hvac!", ⟨"https://joeshvac.com", true, "217-555-0100", true, "", false⟩,
   ⟨5, 80⟩, ["google_maps", "yelp"], ["g", "y", "multi_source_aggregated"], 2⟩

/-- Witness for C5 on the concrete input. -/
theorem c5_review_count_max_witness :
    c5m ∈ aggregate_business_data c2l
    ∧ (c5m.metrics.review_count
        = (c2l.filter (groupPred (bizKey c5m))).foldl
            (fun a b => max a b.metrics.review_count) 0
      ∧ ∀ b ∈ c2l.filter (groupPred (bizKey c5m)),
          b.metrics.review_count ≤ c5m.metrics.review_count) :=
  ⟨by decide, c5_review_count_max c2l c5m (by decide)⟩

/-- Field facts every merged output satisfies, used for the idempotence
analysis: well-formed name, duplicate-free sources counted exactly, and the
aggregation tag present. -/
lemma aggregate_props (l : List Biz) (m : Biz)
    (hm : m ∈ aggregate_business_data l) :
    goodB m = true
    ∧ m.data_sources.Nodup
    ∧ m.source_count = m.data_sources.length
    ∧ "multi_source_aggregated" ∈ m.tags := by
  obtain ⟨k, _, h, t, hg, rfl⟩ := aggregate_mem_char l m hm
  refine ⟨(merged_key k l h t hg).2, unionSources_nodup (h :: t), rfl, ?_⟩
  show "multi_source_aggregated" ∈ unionTags (h :: t) ++ ["multi_source_aggregated"]
  simp

lemma filter_self_of_nodup_keys (A : List Biz) (hgood : ∀ x ∈ A, goodB x = true)
    (hkeys : (A.map bizKey).Nodup) (m : Biz) (hm : m ∈ A) :
    A.filter (groupPred (bizKey m)) = [m] := by
  induction A with
  | nil => simp at hm
  | cons a t ih =>
    rw [List.map_cons, List.nodup_cons] at hkeys
    rcases List.mem_cons.mp hm with rfl | hm2
    · rw [List.filter_cons]
      rw [if_pos (by simp [groupPred, hgood m (by simp)])]
      have : t.filter (groupPred (bizKey m)) = [] := by
        rw [List.filter_eq_nil]
        intro x hx hpx
        exact hkeys.1 ((groupPred_key hpx).2 ▸ List.mem_map_of_mem bizKey hx)
      rw [this]
    · rw [List.filter_cons]
      have hne : bizKey a ≠ bizKey m := by
        intro hq
        exact hkeys.1 (hq ▸ List.mem_map_of_mem bizKey hm2)
      rw [if_neg (by simp [groupPred, hne])]
      exact ih (fun x hx => hgood x (List.mem_cons_of_mem _ hx)) hkeys.2 hm2

lemma mergeGroup_singleton (m : Biz) :
    mergeGroup m [m]
      = { m with data_sources := dedupAppend [] m.data_sources,
                 source_count := (dedupAppend [] m.data_sources).length,
                 tags := dedupAppend [] m.tags ++ ["multi_source_aggregated"] } := by
  unfold mergeGroup unionSources unionTags
  simp only [List.foldl_cons, List.foldl_nil]
  rw [mergeContact_self, mergeMetrics_self]

lemma dedupAppend_nil_of_nodup (xs : List String) (h : xs.Nodup) :
    dedupAppend [] xs = xs := by
  rw [dedupAppend_of_fresh xs [] h (by simp), List.nil_append]

lemma dedupAppend_nil_toFinset (xs : List String) :
    (dedupAppend [] xs).toFinset = xs.toFinset := by
  ext y
  rw [List.mem_toFinset, List.mem_toFinset, dedupAppend_mem]
  simp

/-- On a list of well-formed records with pairwise distinct keys, the
deduplicator degenerates to a per-record renormalization. -/
lemma aggregate_of_distinct (A : List Biz) (hgood : ∀ m ∈ A, goodB m = true)
    (hkeys : (A.map bizKey).Nodup) :
    aggregate_business_data A = A.map (fun m => mergeGroup m [m]) := by
  unfold aggregate_business_data
  rw [groupByKey_eq_spec]
  have hkeysOf : keysOf A = A.map bizKey := by
    unfold keysOf
    rw [List.filter_eq_self.mpr hgood]
    exact dedupAppend_nil_of_nodup _ hkeys
  rw [hkeysOf, List.map_map, List.filterMap_map]
  refine filterMap_eq_map_of_some A _ _ ?_
  intro m hm
  show mergeGroupOpt (A.filter (groupPred (bizKey m))) = some (mergeGroup m [m])
  rw [filter_self_of_nodup_keys A hgood hkeys m hm, mergeGroupOpt_cons]
  rfl

lemma forall₂_map_left {α : Type} (R : α → α → Prop) (f : α → α) :
    ∀ l : List α, (∀ a ∈ l, R (f a) a) → List.Forall₂ R (l.map f) l := by
  intro l
  induction l with
  | nil => intro _; exact List.Forall₂.nil
  | cons a t ih =>
    intro h
    exact List.Forall₂.cons (h a (by simp))
      (ih (fun x hx => h x (List.mem_cons_of_mem _ hx)))

/-- C3 (amended): running the deduplicator a second time preserves every
merged record except for its tags list, which keeps the same underlying set
but gains a duplicate of the aggregation marker. -/
theorem c3_idempotent_amended (l : List Biz) :
    List.Forall₂
      (fun b2 a => b2 = { a with tags := b2.tags }
        ∧ b2.tags.toFinset = a.tags.toFinset)
      (aggregate_business_data (aggregate_business_data l))
      (aggregate_business_data l) := by
  have hgood : ∀ m ∈ aggregate_business_data l, goodB m = true :=
    fun m hm => (aggregate_props l m hm).1
  have hkeys : ((aggregate_business_data l).map bizKey).Nodup := by
    rw [aggregate_keys]; exact keysOf_nodup l
  rw [aggregate_of_distinct _ hgood hkeys]
  refine forall₂_map_left _ _ _ ?_
  intro m hm
  obtain ⟨_, hnds, hcount, htag⟩ := aggregate_props l m hm
  rw [mergeGroup_singleton, dedupAppend_nil_of_nodup _ hnds]
  constructor
  · rw [← hcount]
  · show (dedupAppend [] m.tags ++ ["multi_source_aggregated"]).toFinset
      = m.tags.toFinset
    rw [List.toFinset_append, dedupAppend_nil_toFinset]
    have : ({"multi_source_aggregated"} : Finset String) ⊆ m.tags.toFinset := by
      rw [Finset.singleton_subset_iff, List.mem_toFinset]
      exact htag
    rw [show (["multi_source_aggregated"] : List String).toFinset
        = {"multi_source_aggregated"} from rfl]
    exact Finset.union_eq_left.mpr this

end Okapiq
